import Mathlib

/-!
Verification of the secure file gateway (repo-viewer server).
We shallowly embed the server's path sandboxing, visibility filtering,
authentication rate limiting, origin validation, conditional caching and
upload-filename validation, and prove the specified properties.
-/

/-- The null character U+0000. -/
def nullChar : Char := Char.ofNat 0

/-- JavaScript whitespace characters, the set matched by the regex class
backslash-s and removed by String.prototype.trim. -/
def isJsWhitespace (c : Char) : Bool :=
  c = ' ' || c = '\t' || c = '\n' || c = '\r' ||
  c = Char.ofNat 11 || c = Char.ofNat 12 ||
  c = Char.ofNat 0xa0 || c = Char.ofNat 0x1680 ||
  (Char.ofNat 0x2000 ≤ c && c ≤ Char.ofNat 0x200a) ||
  c = Char.ofNat 0x2028 || c = Char.ofNat 0x2029 ||
  c = Char.ofNat 0x202f || c = Char.ofNat 0x205f ||
  c = Char.ofNat 0x3000 || c = Char.ofNat 0xfeff

/-- JavaScript String.prototype.trim on a character list. -/
def jsTrimData (l : List Char) : List Char :=
  ((l.dropWhile isJsWhitespace).reverse.dropWhile isJsWhitespace).reverse

/-- JavaScript String.prototype.trim. -/
def jsTrim (s : String) : String := ⟨jsTrimData s.data⟩

/-- JavaScript String.prototype.startsWith. -/
def jsStartsWith (s pre : String) : Bool := List.isPrefixOf pre.data s.data

/-- ASCII lower-casing of one character (JS toLowerCase restricted to ASCII,
which is all the comparisons below ever depend on). -/
def asciiLower (c : Char) : Char :=
  if 'A' ≤ c && c ≤ 'Z' then Char.ofNat (c.toNat + 32) else c

/-- JavaScript String.prototype.toLowerCase (ASCII fragment). -/
def jsToLower (s : String) : String := ⟨s.data.map asciiLower⟩

/-- JavaScript String.prototype.split with a one-character separator. -/
def splitOnCharCh (sep : Char) : List Char → List (List Char)
  | [] => [[]]
  | c :: cs =>
    if c = sep then [] :: splitOnCharCh sep cs
    else
      match splitOnCharCh sep cs with
      | [] => [[c]]
      | h :: t => (c :: h) :: t

/-- Splitting a repo-relative path into segments on the slash character. -/
def splitSlashCh (l : List Char) : List (List Char) := splitOnCharCh '/' l

/-- Join segments with the slash character (inverse of `splitSlashCh`). -/
def joinSegsCh : List (List Char) → List Char
  | [] => []
  | [s] => s
  | s :: rest => s ++ '/' :: joinSegsCh rest

/-- Segment-level normalization of an absolute POSIX path: empty and dot
segments are dropped, a dot-dot segment pops the previous segment (and is
dropped at the root).  This is Node `path.posix` normalizeString with
allowAboveRoot set to false, expressed on the segment list. -/
def normAbsAux (acc : List (List Char)) : List (List Char) → List (List Char)
  | [] => acc
  | seg :: rest =>
    if seg = [] ∨ seg = ['.'] then normAbsAux acc rest
    else if seg = ['.', '.'] then normAbsAux acc.dropLast rest
    else normAbsAux (acc ++ [seg]) rest

def normAbsCh (l : List (List Char)) : List (List Char) := normAbsAux [] l

/-- Render a normalized segment list as an absolute path string. -/
def renderAbsCh (l : List (List Char)) : List Char := '/' :: joinSegsCh l

/-- The normalized segment list of a path string. -/
def pathSegsCh (s : String) : List (List Char) := normAbsCh (splitSlashCh s.data)

/-- Node `path.posix.isAbsolute`. -/
def jsIsAbsolute (p : String) : Bool := jsStartsWith p "/"

/-- Node `path.posix.resolve root input` for an absolute `root` (as at every
call site in the server: `REPO_ROOT` and the image directories are themselves
outputs of `path.resolve`): if `input` is absolute it is normalized on its
own, otherwise it is joined to `root` and the combination normalized. -/
def pathResolve (root input : String) : String :=
  let combined :=
    if jsIsAbsolute input then input.data else root.data ++ '/' :: input.data
  ⟨renderAbsCh (normAbsCh (splitSlashCh combined))⟩

/-- Segment-level core of Node `path.posix.relative`: strip the common
prefix, then climb with dot-dot segments and descend into the target. -/
def relSegsCh : List (List Char) → List (List Char) → List (List Char)
  | [], ts => ts
  | _ :: fs, [] => List.replicate (fs.length + 1) ['.', '.']
  | f :: fs, t :: ts =>
    if f = t then relSegsCh fs ts
    else List.replicate (fs.length + 1) ['.', '.'] ++ t :: ts

/-- Node `path.posix.relative` for absolute arguments (the only way the
server calls it; `resolve` applied to an absolute path is normalization). -/
def pathRelative (fromPath toPath : String) : String :=
  ⟨joinSegsCh (relSegsCh (pathSegsCh fromPath) (pathSegsCh toPath))⟩

/-- Node `path.posix.basename` on a character list: drop trailing slashes,
then keep the final slash-free run. -/
def basenameCh (l : List Char) : List Char :=
  ((l.reverse.dropWhile (fun c => c = '/')).takeWhile (fun c => c ≠ '/')).reverse

/-- Scanner state of Node `path.posix.extname` (field names follow the Node
implementation; `endPos` is its `end`). -/
structure ExtSt where
  startDot : Int
  startPart : Nat
  endPos : Int
  matchedSlash : Bool
  preDotState : Int
deriving Repr, DecidableEq

/-- The right-to-left scan loop of Node `path.posix.extname`; the input list
pairs each character with its index, rightmost first. -/
def extScan : List (Nat × Char) → ExtSt → ExtSt
  | [], st => st
  | (i, c) :: rest, st =>
    if c = '/' then
      if !st.matchedSlash then { st with startPart := i + 1 }
      else extScan rest st
    else
      let st1 :=
        if st.endPos = -1 then { st with matchedSlash := false, endPos := (i : Int) + 1 }
        else st
      let st2 :=
        if c = '.' then
          if st1.startDot = -1 then { st1 with startDot := (i : Int) }
          else if st1.preDotState ≠ 1 then { st1 with preDotState := 1 }
          else st1
        else if st1.startDot ≠ -1 then { st1 with preDotState := -1 }
        else st1
      extScan rest st2

/-- Node `path.posix.extname`. -/
def extname (p : String) : String :=
  let indexed := p.data.enum.reverse
  let st := extScan indexed ⟨-1, 0, -1, true, 0⟩
  if st.startDot = -1 ∨ st.endPos = -1 ∨ st.preDotState = 0 ∨
      (st.preDotState = 1 ∧ st.startDot = st.endPos - 1 ∧ st.startDot = (st.startPart : Int) + 1) then
    ""
  else
    ⟨(p.data.drop st.startDot.toNat).take (st.endPos - st.startDot).toNat⟩

/-- Segment-level normalization of a relative POSIX path (Node
normalizeString with allowAboveRoot true): leading dot-dot segments are
kept rather than dropped. -/
def normRelAux (acc : List (List Char)) : List (List Char) → List (List Char)
  | [] => acc
  | seg :: rest =>
    if seg = [] ∨ seg = ['.'] then normRelAux acc rest
    else if seg = ['.', '.'] then
      if acc ≠ [] ∧ acc.getLast? ≠ some ['.', '.'] then normRelAux acc.dropLast rest
      else normRelAux (acc ++ [seg]) rest
    else normRelAux (acc ++ [seg]) rest

/-- Node `path.posix.join a b` for the server's call sites (both arguments
nonempty, no trailing-slash preservation is ever observed): join with a
slash and normalize, yielding a dot for an empty result. -/
def pathJoin (a b : String) : String :=
  if a = "" ∧ b = "" then "."
  else
    let combined := a.data ++ '/' :: b.data
    let segs := normRelAux [] (splitSlashCh combined)
    let rendered :=
      if jsStartsWith a "/" then renderAbsCh segs else joinSegsCh segs
    if rendered = [] then "." else ⟨rendered⟩

/-! ## Server definitions, translated from the gateway source -/

def AUTH_WINDOW_MS : Int := 10 * 60 * 1000
def AUTH_MAX_ATTEMPTS : Nat := 20
def AUTH_BLOCK_MS : Int := 15 * 60 * 1000

def ALLOWED_IMAGE_EXTENSIONS : List String :=
  [".png", ".jpg", ".jpeg", ".gif", ".webp", ".svg", ".bmp", ".heic", ".heif", ".avif"]

/-- `isWithinRepo` from the source, with the configured root made explicit. -/
def isWithinRepo (root absPath : String) : Bool :=
  let relative := pathRelative root absPath
  relative = "" || (!(jsStartsWith relative "..") && !(jsIsAbsolute relative))

/-- `resolveRepoPath` from the source: trim, reject the null byte, resolve
against the root, reject lexical escapes. -/
def resolveRepoPath (root : String) (relativePath : Option String) : Except String String :=
  let input := jsTrim (relativePath.getD "")
  if input.data.contains nullChar then Except.error "Path contains null byte"
  else
    let resolved := pathResolve root input
    if !(isWithinRepo root resolved) then Except.error "Path escapes repository root"
    else Except.ok resolved

/-- `toRepoRelativePath` from the source (on POSIX, `path.sep` is the slash,
so the split-and-join rewrites separators to themselves). -/
def toRepoRelativePath (root absPath : String) : String :=
  let relative := pathRelative root absPath
  if relative = "" then ""
  else ⟨joinSegsCh (splitSlashCh relative.data)⟩

/-- `isHiddenRepoRelativePath` from the source. -/
def isHiddenRepoRelativePath (repoRelativePath : String) : Bool :=
  if repoRelativePath = "" then false
  else (splitSlashCh repoRelativePath.data).any (fun segment => List.isPrefixOf ['.'] segment)

/-- `isBlockedHiddenRepoRelativePath` from the source. -/
def isBlockedHiddenRepoRelativePath (repoRelativePath : String) : Bool :=
  isHiddenRepoRelativePath repoRelativePath

/-- Split on the line-break regex (carriage-return optional, then newline). -/
def splitLinesCh : List Char → List (List Char)
  | [] => [[]]
  | '\r' :: '\n' :: cs => [] :: splitLinesCh cs
  | c :: cs =>
    if c = '\n' then [] :: splitLinesCh cs
    else
      match splitLinesCh cs with
      | [] => [[c]]
      | h :: t => (c :: h) :: t

/-- `parseGitIgnoredStdout` from the source; the JS `Set` is modelled as the
deduplicated list of trimmed nonempty lines. -/
def parseGitIgnoredStdout (stdout : Option String) : List String :=
  match stdout with
  | none => []
  | some s =>
    (((splitLinesCh s.data).map (fun l => (⟨jsTrimData l⟩ : String))).filter
      (fun line => line ≠ "")).dedup

/-- Outcome of the external ignore-oracle subprocess (`git check-ignore`):
either it exits zero with its stdout, or it fails, possibly still having
produced output. -/
inductive ExecOutcome where
  | success (stdout : String)
  | failure (stdout : Option String)
deriving Repr, DecidableEq

/-- `getGitIgnoredPathSet` from the source, with the subprocess modelled by
`exec`; on failure the error object's captured stdout (if any) is parsed. -/
def getGitIgnoredPathSet (exec : List String → ExecOutcome)
    (repoRelativePaths : List String) : List String :=
  let normalizedPaths := (repoRelativePaths.filter (fun p => p ≠ "")).dedup
  if normalizedPaths = [] then []
  else
    match exec normalizedPaths with
    | ExecOutcome.success stdout => parseGitIgnoredStdout (some stdout)
    | ExecOutcome.failure stdout => parseGitIgnoredStdout stdout

/-- `assertPathAccessible` from the source. -/
def assertPathAccessible (exec : List String → ExecOutcome) (root absPath : String)
    (allowHidden allowGitIgnored : Bool) : Except String Unit :=
  let repoRelativePath := toRepoRelativePath root absPath
  if !allowHidden && isBlockedHiddenRepoRelativePath repoRelativePath then
    Except.error "Hidden paths are not accessible"
  else if !allowGitIgnored && repoRelativePath ≠ "" then
    let ignoredPathSet := getGitIgnoredPathSet exec [repoRelativePath]
    if ignoredPathSet.contains repoRelativePath then
      Except.error "Gitignored paths are not accessible"
    else Except.ok ()
  else Except.ok ()

/-- The fields of an `fs.Stats` value the gateway reads. -/
structure Stats where
  isFile : Bool
  isDirectory : Bool
  size : Nat
  mtimeMs : Rat
deriving Repr, DecidableEq

/-- The filesystem and subprocess collaborators of the gateway: `stat` and
`realpath` return none where the Node calls would throw. -/
structure Fs where
  stat : String → Option Stats
  realpath : String → Option String
  exec : List String → ExecOutcome

/-- `ensureDirectory` from the source: stat, require a directory, resolve
symlinks, re-check containment on the real path, then visibility. -/
def ensureDirectory (fs : Fs) (root absPath : String)
    (allowHidden allowGitIgnored : Bool) : Except String Unit := do
  let stats ← match fs.stat absPath with
    | some st => pure st
    | none => Except.error "ENOENT"
  if !stats.isDirectory then Except.error "Target path is not a directory"
  else
    let realPath ← match fs.realpath absPath with
      | some rp => pure rp
      | none => Except.error "ENOENT"
    if !(isWithinRepo root realPath) then
      Except.error "Resolved path escapes repository root"
    else assertPathAccessible fs.exec root realPath allowHidden allowGitIgnored

/-- `ensureFile` from the source, the file twin of `ensureDirectory`. -/
def ensureFile (fs : Fs) (root absPath : String)
    (allowHidden allowGitIgnored : Bool) : Except String Unit := do
  let stats ← match fs.stat absPath with
    | some st => pure st
    | none => Except.error "ENOENT"
  if !stats.isFile then Except.error "Target path is not a file"
  else
    let realPath ← match fs.realpath absPath with
      | some rp => pure rp
      | none => Except.error "ENOENT"
    if !(isWithinRepo root realPath) then
      Except.error "Resolved path escapes repository root"
    else assertPathAccessible fs.exec root realPath allowHidden allowGitIgnored

/-- `sanitizeUploadFilename` from the source: basename, strip C0 control
characters, trim; degenerate results become a timestamped fallback
(`now` models the `Date.now()` call). -/
def sanitizeUploadFilename (now : Int) (originalName : String) : String :=
  let stripped : String := ⟨(basenameCh originalName.data).filter (fun c => !(c.toNat ≤ 31))⟩
  let cleaned := jsTrim stripped
  if cleaned = "" ∨ cleaned = "." ∨ cleaned = ".." then "upload-" ++ toString now
  else cleaned

/-- The character class of the filename regex: letters, digits, dot,
underscore and dash. -/
def isAllowedFilenameChar (c : Char) : Bool :=
  ('A' ≤ c && c ≤ 'Z') || ('a' ≤ c && c ≤ 'z') || ('0' ≤ c && c ≤ '9') ||
  c = '.' || c = '_' || c = '-'

/-- `validateUploadFilename` from the source: none means the name is
accepted, some carries the rejection reason. -/
def validateUploadFilename (fileName : String) : Option String :=
  if fileName = "" then some "Filename is required"
  else if fileName.data.any isJsWhitespace then some "Filename cannot contain spaces"
  else if fileName = "." ∨ fileName = ".." ∨ jsStartsWith fileName "." then
    some "Filename is invalid"
  else if !(fileName.data ≠ [] && fileName.data.all isAllowedFilenameChar) then
    some "Filename may only contain letters, numbers, dot, underscore, and dash"
  else
    let extension := jsToLower (extname fileName)
    if extension = "" ∨ ¬ extension ∈ ALLOWED_IMAGE_EXTENSIONS then
      some "Filename must use an allowed image extension"
    else none

/-- `resolveNamedImagePath` from the source; `cwd` backs the single-argument
`path.resolve` on the base directory and `now` the timestamp fallback. -/
def resolveNamedImagePath (cwd : String) (now : Int)
    (baseDirectoryPath requestedName : String) : Except String (String × String) :=
  let safeName := sanitizeUploadFilename now requestedName
  match validateUploadFilename safeName with
  | some validationError => Except.error validationError
  | none =>
    let absoluteDirectoryPath := pathResolve cwd baseDirectoryPath
    let absolutePath := pathResolve absoluteDirectoryPath safeName
    let relativeToDirectory := pathRelative absoluteDirectoryPath absolutePath
    if jsStartsWith relativeToDirectory ".." || jsIsAbsolute relativeToDirectory then
      Except.error "Path escapes target directory"
    else Except.ok (absolutePath, safeName)

/-- The `filename` callback of the multer disk storage from the source: an
error result aborts the upload, so nothing is written for the request. -/
def storageFilename (now : Int) (uploadDirectoryPath : Option String)
    (requestedName : Option String) (existsAt : String → Bool) : Except String String :=
  match uploadDirectoryPath with
  | none => Except.error "Upload directory unavailable"
  | some dir =>
    match requestedName with
    | none => Except.error "Missing required query parameter: name"
    | some rn =>
      let sanitizedRequestedName := sanitizeUploadFilename now rn
      match validateUploadFilename sanitizedRequestedName with
      | some validationError => Except.error validationError
      | none =>
        let targetPath := pathJoin dir sanitizedRequestedName
        if existsAt targetPath then Except.error "Filename already exists"
        else Except.ok sanitizedRequestedName

/-- `buildWeakETag` from the source; `mtimeMs` is the stat's float
millisecond timestamp, modelled as a rational. -/
def buildWeakETag (stats : Stats) : String :=
  "W/\"" ++ toString stats.size ++ "-" ++ toString (Rat.floor stats.mtimeMs) ++ "\""

/-- `shouldRespondNotModified` from the source; `parseDate` models
`Date.parse` (none where it yields NaN), and the two header reads are the
request's `if-none-match` and `if-modified-since` values. -/
def shouldRespondNotModified (parseDate : String → Option Int)
    (ifNoneMatch ifModifiedSince : Option String)
    (etag : String) (lastModifiedMillis : Rat) : Bool :=
  let inmHit :=
    match ifNoneMatch with
    | some h =>
      if h = "" then false
      else
        let candidates := (splitOnCharCh ',' h.data).map (fun v => (jsTrim ⟨v⟩ : String))
        candidates.contains "*" || candidates.contains etag
    | none => false
  if inmHit then true
  else
    match ifModifiedSince with
    | some h =>
      if h = "" then false
      else
        match parseDate h with
        | some since =>
          let lastModifiedSeconds : Int := Rat.floor (lastModifiedMillis / 1000) * 1000
          decide (since ≥ lastModifiedSeconds)
        | none => false
    | none => false

/-- The header and connection fields of an incoming request that the
gateway reads (absent headers are none; Express yields strings). -/
structure Request where
  method : String
  authorization : Option String
  origin : Option String
  referer : Option String
  host : Option String
  xForwardedHost : Option String
  xForwardedProto : Option String
  protocol : Option String
  xForwardedFor : Option String
  ip : Option String
  remoteAddress : Option String
  ifNoneMatch : Option String
  ifModifiedSince : Option String

/-- The components of a WHATWG `URL` value the gateway reads. -/
structure JsURL where
  protocol : String
  hostname : String
  port : String
deriving Repr, DecidableEq

/-- `normalizeAuthority` from the source: lowercase host, port defaulted by
scheme. -/
def normalizeAuthority (authorityUrl : JsURL) : String :=
  let protocolPort := if authorityUrl.protocol = "https:" then "443" else "80"
  let port := if authorityUrl.port = "" then protocolPort else authorityUrl.port
  jsToLower authorityUrl.hostname ++ ":" ++ port

/-- `normalizeRequestAuthority` from the source; `parseURL` models the
WHATWG `URL` constructor (none where it throws). -/
def normalizeRequestAuthority (parseURL : String → Option JsURL) (req : Request) :
    Option String :=
  let hostHeader :=
    match req.xForwardedHost with
    | some h => some h
    | none => req.host
  match hostHeader with
  | none => none
  | some hostHeader =>
    if hostHeader = "" then none
    else
      let protocolHeader :=
        match req.xForwardedProto with
        | some p => p
        | none =>
          match req.protocol with
          | some p => p
          | none => "http"
      let protocol :=
        if jsStartsWith (jsToLower protocolHeader) "https" then "https" else "http"
      match parseURL (protocol ++ "://" ++ hostHeader) with
      | some u => some (normalizeAuthority u)
      | none => none

/-- `isSameOriginMutation` from the source: the origin (or, absent that,
referer) authority must equal the request's own authority. -/
def isSameOriginMutation (parseURL : String → Option JsURL) (req : Request) : Bool :=
  match normalizeRequestAuthority parseURL req with
  | none => false
  | some requestAuthority =>
    match req.origin with
    | some originHeader =>
      if originHeader = "" then
        match req.referer with
        | some refererHeader =>
          if refererHeader = "" then false
          else
            match parseURL refererHeader with
            | some u => normalizeAuthority u = requestAuthority
            | none => false
        | none => false
      else
        match parseURL originHeader with
        | some u => normalizeAuthority u = requestAuthority
        | none => false
    | none =>
      match req.referer with
      | some refererHeader =>
        if refererHeader = "" then false
        else
          match parseURL refererHeader with
          | some u => normalizeAuthority u = requestAuthority
          | none => false
      | none => false

/-- `parseBasicAuthPassword` from the source; `base64` models the Node
`Buffer` base64-to-utf8 decoding. -/
def parseBasicAuthPassword (base64 : String → Option String) (req : Request) :
    Option String :=
  match req.authorization with
  | none => none
  | some authHeader =>
    if authHeader = "" then none
    else if !(jsStartsWith authHeader "Basic ") then none
    else
      let encoded := jsTrim ⟨authHeader.data.drop 6⟩
      if encoded = "" then none
      else
        match base64 encoded with
        | none => none
        | some decoded =>
          match decoded.data.findIdx? (fun c => c = ':') with
          | none => none
          | some separatorIndex => some ⟨decoded.data.drop (separatorIndex + 1)⟩

/-- `constantTimePasswordMatch` from the source: the length guard plus
`timingSafeEqual` on the UTF-8 buffers amount to byte equality of the
encodings, and UTF-8 encoding is injective, hence string equality. -/
def constantTimePasswordMatch (actualPassword expectedPassword : String) : Bool :=
  actualPassword = expectedPassword

/-- `clientIPAddress` from the source: first x-forwarded-for entry if
nonempty, else `req.ip`, else the socket address, else "unknown". -/
def clientIPAddress (req : Request) : String :=
  let viaForwarded : Option String :=
    match req.xForwardedFor with
    | some forwardedFor =>
      if forwardedFor = "" then none
      else
        let first := jsTrim ⟨(splitOnCharCh ',' forwardedFor.data).headD []⟩
        if first = "" then none else some first
    | none => none
  match viaForwarded with
  | some first => first
  | none =>
    match req.ip with
    | some s =>
      if s = "" then
        match req.remoteAddress with
        | some r => if r = "" then "unknown" else r
        | none => "unknown"
      else s
    | none =>
      match req.remoteAddress with
      | some r => if r = "" then "unknown" else r
      | none => "unknown"

/-- One entry of `authFailureByIP`. -/
structure AuthRecord where
  windowStartAt : Int
  failures : Nat
  blockedUntil : Int
deriving Repr, DecidableEq

/-- The `authFailureByIP` map. -/
def AuthMap : Type := String → Option AuthRecord

def mapSet (m : AuthMap) (k : String) (v : AuthRecord) : AuthMap :=
  fun k2 => if k2 = k then some v else m k2

def mapErase (m : AuthMap) (k : String) : AuthMap :=
  fun k2 => if k2 = k then none else m k2

/-- `recordAuthFailure` from the source, with the clock explicit; the
returned option is the `blockedUntil` field of its result object. -/
def recordAuthFailure (now : Int) (ip : String) (m : AuthMap) : AuthMap × Option Int :=
  match m ip with
  | none => (mapSet m ip ⟨now, 1, 0⟩, none)
  | some existing =>
    if now - existing.windowStartAt ≥ AUTH_WINDOW_MS then
      (mapSet m ip ⟨now, 1, 0⟩, none)
    else
      let failures := existing.failures + 1
      if failures ≥ AUTH_MAX_ATTEMPTS then
        (mapSet m ip ⟨now, 0, now + AUTH_BLOCK_MS⟩, some (now + AUTH_BLOCK_MS))
      else
        (mapSet m ip { existing with failures := failures }, none)

/-- `Math.ceil(x / 1000)` on an integer millisecond difference. -/
def jsCeilDiv1000 (x : Int) : Int := (x + 999) / 1000

/-- How the auth middleware disposes of a request: 429 with a Retry-After
value, 403, 401, or handing the request on to the route handler. -/
inductive AuthOutcome where
  | rateLimited (retryAfter : Int)
  | forbidden
  | unauthorized
  | proceed
deriving Repr, DecidableEq

/-- The auth middleware from the source (installed when a password is
configured): blocked-IP check, then credential check, then, for mutating
verbs, the same-origin check; failures are recorded and may block. -/
def authMiddleware (base64 : String → Option String) (parseURL : String → Option JsURL)
    (expectedPassword : String) (now : Int) (req : Request) (m : AuthMap) :
    AuthOutcome × AuthMap :=
  let ip := clientIPAddress req
  let activeBlock : Option Int :=
    match m ip with
    | some existing =>
      if existing.blockedUntil ≠ 0 ∧ existing.blockedUntil > now then
        some existing.blockedUntil
      else none
    | none => none
  match activeBlock with
  | some blockedUntil => (AuthOutcome.rateLimited (jsCeilDiv1000 (blockedUntil - now)), m)
  | none =>
    let passwordOk :=
      match parseBasicAuthPassword base64 req with
      | some suppliedPassword => constantTimePasswordMatch suppliedPassword expectedPassword
      | none => false
    if passwordOk then
      let m1 := mapErase m ip
      if (req.method = "POST" ∨ req.method = "PUT" ∨ req.method = "PATCH" ∨
          req.method = "DELETE") then
        if !(isSameOriginMutation parseURL req) then (AuthOutcome.forbidden, m1)
        else (AuthOutcome.proceed, m1)
      else (AuthOutcome.proceed, m1)
    else
      let result := recordAuthFailure now ip m
      match result.2 with
      | some blockedUntil =>
        (AuthOutcome.rateLimited (jsCeilDiv1000 (blockedUntil - now)), result.1)
      | none => (AuthOutcome.unauthorized, result.1)

/-! ## Path lemmas -/

theorem splitOnCharCh_ne_nil (sep : Char) (l : List Char) : splitOnCharCh sep l ≠ [] := by
  induction l with
  | nil => simp [splitOnCharCh]
  | cons c cs ih =>
    simp only [splitOnCharCh]
    split
    · simp
    · split
      · simp
      · simp

theorem sep_not_mem_of_mem_splitOnCharCh (sep : Char) (l : List Char) :
    ∀ s ∈ splitOnCharCh sep l, sep ∉ s := by
  induction l with
  | nil => intro s hs; simp [splitOnCharCh] at hs; simp [hs]
  | cons c cs ih =>
    intro s hs
    simp only [splitOnCharCh] at hs
    by_cases hc : c = sep
    · rw [if_pos hc] at hs
      rcases List.mem_cons.mp hs with h | h
      · simp [h]
      · exact ih s h
    · rw [if_neg hc] at hs
      rcases hr : splitOnCharCh sep cs with _ | ⟨h0, t⟩
      · exact absurd hr (splitOnCharCh_ne_nil sep cs)
      · rw [hr] at hs
        rcases List.mem_cons.mp hs with h | h
        · subst h
          intro hmem
          rcases List.mem_cons.mp hmem with h | h
          · exact hc h.symm
          · exact ih h0 (hr ▸ List.mem_cons_self h0 t) h
        · exact ih s (hr ▸ List.mem_cons_of_mem h0 h)

theorem splitOnCharCh_of_not_mem (sep : Char) (a : List Char) (h : sep ∉ a) :
    splitOnCharCh sep a = [a] := by
  induction a with
  | nil => simp [splitOnCharCh]
  | cons c cs ih =>
    have hc : ¬ c = sep := fun hc => h (hc ▸ List.mem_cons_self c cs)
    have hcs : sep ∉ cs := fun hm => h (List.mem_cons_of_mem c hm)
    simp only [splitOnCharCh, if_neg hc, ih hcs]

theorem splitOnCharCh_append (sep : Char) (a t : List Char) (h : sep ∉ a) :
    splitOnCharCh sep (a ++ sep :: t) = a :: splitOnCharCh sep t := by
  induction a with
  | nil => simp [splitOnCharCh]
  | cons c cs ih =>
    have hc : ¬ c = sep := fun hc => h (hc ▸ List.mem_cons_self c cs)
    have hcs : sep ∉ cs := fun hm => h (List.mem_cons_of_mem c hm)
    simp only [List.cons_append, splitOnCharCh, if_neg hc, List.append_eq, ih hcs]

theorem joinSegsCh_cons (s : List Char) (rest : List (List Char)) :
    ∃ u, joinSegsCh (s :: rest) = s ++ u := by
  cases rest with
  | nil => exact ⟨[], by simp [joinSegsCh]⟩
  | cons r rs => exact ⟨'/' :: joinSegsCh (r :: rs), rfl⟩

theorem splitSlash_joinSegs (l : List (List Char)) (hne : l ≠ [])
    (hns : ∀ s ∈ l, '/' ∉ s) : splitSlashCh (joinSegsCh l) = l := by
  induction l with
  | nil => exact absurd rfl hne
  | cons s rest ih =>
    cases rest with
    | nil =>
      simp only [joinSegsCh, splitSlashCh]
      exact splitOnCharCh_of_not_mem '/' s (hns s (List.mem_cons_self s []))
    | cons r rs =>
      have hjoin : joinSegsCh (s :: r :: rs) = s ++ '/' :: joinSegsCh (r :: rs) := rfl
      rw [hjoin]
      unfold splitSlashCh
      rw [splitOnCharCh_append '/' s (joinSegsCh (r :: rs))
        (hns s (List.mem_cons_self s (r :: rs)))]
      have := ih (by simp) (fun x hx => hns x (List.mem_cons_of_mem s hx))
      unfold splitSlashCh at this
      rw [this]

/-- Segment cleanliness: what holds of every output segment of `normAbsCh`
applied to a slash split. -/
def cleanSeg (s : List Char) : Prop :=
  s ≠ [] ∧ s ≠ ['.'] ∧ s ≠ ['.', '.'] ∧ '/' ∉ s

theorem normAbsAux_mem (l : List (List Char)) :
    ∀ acc s, s ∈ normAbsAux acc l → s ∈ acc ∨ s ∈ l := by
  induction l with
  | nil => intro acc s hs; exact Or.inl hs
  | cons seg rest ih =>
    intro acc s hs
    simp only [normAbsAux] at hs
    by_cases h1 : seg = [] ∨ seg = ['.']
    · rw [if_pos h1] at hs
      rcases ih acc s hs with h | h
      · exact Or.inl h
      · exact Or.inr (List.mem_cons_of_mem seg h)
    · rw [if_neg h1] at hs
      by_cases h2 : seg = ['.', '.']
      · rw [if_pos h2] at hs
        rcases ih acc.dropLast s hs with h | h
        · exact Or.inl ((List.dropLast_sublist acc).subset h)
        · exact Or.inr (List.mem_cons_of_mem seg h)
      · rw [if_neg h2] at hs
        rcases ih (acc ++ [seg]) s hs with h | h
        · rcases List.mem_append.mp h with h | h
          · exact Or.inl h
          · simp at h
            exact Or.inr (h ▸ List.mem_cons_self seg rest)
        · exact Or.inr (List.mem_cons_of_mem seg h)

theorem normAbsAux_no_dots (l : List (List Char)) :
    ∀ acc, (∀ s ∈ acc, s ≠ [] ∧ s ≠ ['.'] ∧ s ≠ ['.', '.']) →
      ∀ s ∈ normAbsAux acc l, s ≠ [] ∧ s ≠ ['.'] ∧ s ≠ ['.', '.'] := by
  induction l with
  | nil => intro acc hacc s hs; exact hacc s hs
  | cons seg rest ih =>
    intro acc hacc s hs
    simp only [normAbsAux] at hs
    by_cases h1 : seg = [] ∨ seg = ['.']
    · rw [if_pos h1] at hs
      exact ih acc hacc s hs
    · rw [if_neg h1] at hs
      by_cases h2 : seg = ['.', '.']
      · rw [if_pos h2] at hs
        exact ih acc.dropLast
          (fun x hx => hacc x ((List.dropLast_sublist acc).subset hx)) s hs
      · rw [if_neg h2] at hs
        refine ih (acc ++ [seg]) ?_ s hs
        intro x hx
        rcases List.mem_append.mp hx with h | h
        · exact hacc x h
        · simp at h
          subst h
          push_neg at h1
          exact ⟨h1.1, h1.2, h2⟩

theorem normAbsAux_of_clean (l : List (List Char)) :
    ∀ acc, (∀ s ∈ l, s ≠ [] ∧ s ≠ ['.'] ∧ s ≠ ['.', '.']) →
      normAbsAux acc l = acc ++ l := by
  induction l with
  | nil => intro acc _; simp [normAbsAux]
  | cons seg rest ih =>
    intro acc hl
    have hseg := hl seg (List.mem_cons_self seg rest)
    have h1 : ¬ (seg = [] ∨ seg = ['.']) := by
      push_neg
      exact ⟨hseg.1, hseg.2.1⟩
    simp only [normAbsAux, if_neg h1, if_neg hseg.2.2]
    rw [ih (acc ++ [seg]) (fun x hx => hl x (List.mem_cons_of_mem seg hx))]
    simp

theorem cleanSeg_of_mem_normAbs_split (d : List Char) :
    ∀ s ∈ normAbsCh (splitSlashCh d), cleanSeg s := by
  intro s hs
  have hdots := normAbsAux_no_dots (splitSlashCh d) [] (by simp) s hs
  have hmem := normAbsAux_mem (splitSlashCh d) [] s hs
  simp at hmem
  exact ⟨hdots.1, hdots.2.1, hdots.2.2, sep_not_mem_of_mem_splitOnCharCh '/' d s hmem⟩

theorem pathSegsCh_render (l : List (List Char)) (h : ∀ s ∈ l, cleanSeg s) :
    pathSegsCh ⟨renderAbsCh l⟩ = l := by
  cases l with
  | nil => rfl
  | cons s rest =>
    have hdata : (⟨renderAbsCh (s :: rest)⟩ : String).data = '/' :: joinSegsCh (s :: rest) := rfl
    unfold pathSegsCh
    rw [hdata]
    have hsplit1 : splitSlashCh ('/' :: joinSegsCh (s :: rest)) =
        [] :: splitSlashCh (joinSegsCh (s :: rest)) := by
      simp [splitSlashCh, splitOnCharCh]
    rw [hsplit1, splitSlash_joinSegs (s :: rest) (by simp)
      (fun x hx => (h x hx).2.2.2)]
    unfold normAbsCh
    have hstep : normAbsAux [] ([] :: s :: rest) = normAbsAux [] (s :: rest) := by
      simp [normAbsAux]
    rw [hstep, normAbsAux_of_clean (s :: rest) []
      (fun x hx => ⟨(h x hx).1, (h x hx).2.1, (h x hx).2.2.1⟩)]
    simp

theorem pathSegsCh_mk_renderAbs (d : List Char) :
    pathSegsCh ⟨renderAbsCh (normAbsCh (splitSlashCh d))⟩ = normAbsCh (splitSlashCh d) :=
  pathSegsCh_render (normAbsCh (splitSlashCh d)) (cleanSeg_of_mem_normAbs_split d)

theorem isPrefixOf_eq_true_iff {l1 l2 : List Char} :
    List.isPrefixOf l1 l2 = true ↔ l1 <+: l2 :=
  List.isPrefixOf_iff_prefix

theorem relSegsCh_dotdot_of_not_pre (fs ts : List (List Char)) (h : ¬ fs <+: ts) :
    ∃ rest, relSegsCh fs ts = ['.', '.'] :: rest := by
  induction fs generalizing ts with
  | nil => exact absurd List.nil_prefix h
  | cons f fs ih =>
    cases ts with
    | nil =>
      refine ⟨List.replicate fs.length ['.', '.'], ?_⟩
      simp [relSegsCh, List.replicate_succ]
    | cons t ts =>
      by_cases hft : f = t
      · subst hft
        have hsub : ¬ fs <+: ts := fun hp => h (List.cons_prefix_cons.mpr ⟨rfl, hp⟩)
        have := ih ts hsub
        simpa [relSegsCh] using this
      · refine ⟨List.replicate fs.length ['.', '.'] ++ t :: ts, ?_⟩
        simp [relSegsCh, if_neg hft, List.replicate_succ]

theorem relSegsCh_drop_of_pre (fs ts : List (List Char)) (h : fs <+: ts) :
    relSegsCh fs ts = ts.drop fs.length := by
  induction fs generalizing ts with
  | nil => simp [relSegsCh]
  | cons f fs ih =>
    cases ts with
    | nil =>
      have := List.prefix_nil.mp h
      simp at this
    | cons t ts =>
      rcases List.cons_prefix_cons.mp h with ⟨hft, hp⟩
      subst hft
      simp [relSegsCh, ih ts hp]

/-- Lexical containment of a path in a root: the root's normalized segments
are a prefix of the path's. -/
def lexInside (root p : String) : Prop := pathSegsCh root <+: pathSegsCh p

instance (root p : String) : Decidable (lexInside root p) := by
  unfold lexInside
  infer_instance

theorem pathRelative_of_not_lexInside (root q : String) (h : ¬ lexInside root q) :
    ∃ u, (pathRelative root q).data = ['.', '.'] ++ u := by
  rcases relSegsCh_dotdot_of_not_pre (pathSegsCh root) (pathSegsCh q) h with ⟨rest, hrel⟩
  rcases joinSegsCh_cons ['.', '.'] rest with ⟨u, hu⟩
  refine ⟨u, ?_⟩
  show joinSegsCh (relSegsCh (pathSegsCh root) (pathSegsCh q)) = ['.', '.'] ++ u
  rw [hrel, hu]

theorem isWithinRepo_eq_false_of_not_lexInside (root q : String)
    (h : ¬ lexInside root q) : isWithinRepo root q = false := by
  rcases pathRelative_of_not_lexInside root q h with ⟨u, hu⟩
  have hne : pathRelative root q ≠ "" := by
    intro hc
    have := congrArg String.data hc
    rw [hu] at this
    simp at this
  have hsw : jsStartsWith (pathRelative root q) ".." = true := by
    unfold jsStartsWith
    rw [hu]
    exact isPrefixOf_eq_true_iff.mpr ⟨u, rfl⟩
  simp only [isWithinRepo, Bool.or_eq_false_iff, Bool.and_eq_false_iff]
  constructor
  · exact decide_eq_false hne
  · left
    simp [hsw]

theorem lexInside_of_isWithinRepo (root q : String)
    (h : isWithinRepo root q = true) : lexInside root q := by
  by_contra hn
  rw [isWithinRepo_eq_false_of_not_lexInside root q hn] at h
  exact Bool.false_ne_true h

theorem pathSegsCh_pathResolve (root input : String) :
    pathSegsCh (pathResolve root input) =
      normAbsCh (splitSlashCh
        (if jsIsAbsolute input then input.data else root.data ++ '/' :: input.data)) := by
  unfold pathResolve
  exact pathSegsCh_mk_renderAbs _

/-- C1: a raw path whose lexical normalization against the root falls
outside the root makes `resolveRepoPath` fail with the path-escape error,
and a returned path is always lexically inside the root. -/
theorem resolveRepoPath_pathEscape_correct (root raw : String)
    (hnull : nullChar ∉ (jsTrim raw).data) :
    (¬ lexInside root (pathResolve root (jsTrim raw)) →
      resolveRepoPath root (some raw) = Except.error "Path escapes repository root")
    ∧ ∀ p, resolveRepoPath root (some raw) = Except.ok p → lexInside root p := by
  have hc : (jsTrim raw).data.contains nullChar = false := by
    simpa using hnull
  constructor
  · intro hout
    have hw := isWithinRepo_eq_false_of_not_lexInside root _ hout
    simp [resolveRepoPath, hc, hw, hnull]
  · intro p hp
    simp only [resolveRepoPath, Option.getD_some, hc, Bool.false_eq_true,
      if_false] at hp
    by_cases hw : isWithinRepo root (pathResolve root (jsTrim raw)) = true
    · rw [hw] at hp
      simp at hp
      exact hp ▸ lexInside_of_isWithinRepo root _ hw
    · rw [Bool.not_eq_true] at hw
      rw [hw] at hp
      simp at hp

/-- C1 witness: with root `/repo`, the raw path dot-dot is rejected as a
path escape. -/
theorem resolveRepoPath_pathEscape_correct_witness :
    resolveRepoPath "/repo" (some "..") = Except.error "Path escapes repository root" :=
  (resolveRepoPath_pathEscape_correct "/repo" ".." (by decide)).1 (by decide)

/-- C2: an existing target whose symlink-resolved real path lies outside
the root is rejected by `ensureFile` / `ensureDirectory` with the
resolved-path escape error, even when the lexical path lies inside the
root — a symlink inside the root pointing outside is never served. -/
theorem ensure_realpath_escape_rejected (fs : Fs) (root absPath realPath : String)
    (st : Stats) (allowHidden allowGitIgnored : Bool)
    (hstat : fs.stat absPath = some st)
    (hreal : fs.realpath absPath = some realPath)
    (hlex : lexInside root absPath)
    (hout : ¬ lexInside root realPath) :
    (st.isFile = true →
      ensureFile fs root absPath allowHidden allowGitIgnored =
        Except.error "Resolved path escapes repository root")
    ∧ (st.isDirectory = true →
      ensureDirectory fs root absPath allowHidden allowGitIgnored =
        Except.error "Resolved path escapes repository root") := by
  have hw := isWithinRepo_eq_false_of_not_lexInside root realPath hout
  constructor
  · intro hk
    simp [ensureFile, hstat, hreal, hk, hw]
  · intro hk
    simp [ensureDirectory, hstat, hreal, hk, hw]

/-- A concrete filesystem with one symlinked file inside the root whose
real path escapes it. -/
def symlinkFsW : Fs :=
  { stat := fun p => if p = "/repo/link" then some ⟨true, false, 0, 0⟩ else none
    realpath := fun p => if p = "/repo/link" then some "/outside" else none
    exec := fun _ => ExecOutcome.failure none }

/-- C2 witness: the symlinked file at `/repo/link` with real path
`/outside` is rejected. -/
theorem ensure_realpath_escape_rejected_witness :
    ensureFile symlinkFsW "/repo" "/repo/link" false false =
      Except.error "Resolved path escapes repository root" :=
  (ensure_realpath_escape_rejected symlinkFsW "/repo" "/repo/link" "/outside"
    ⟨true, false, 0, 0⟩ false false rfl rfl (by decide) (by decide)).1 rfl

theorem mem_dropWhile_of_not (p : Char → Bool) (l : List Char) (c : Char)
    (hm : c ∈ l) (hp : p c = false) : c ∈ l.dropWhile p := by
  induction l with
  | nil => simp at hm
  | cons x xs ih =>
    by_cases hx : p x = true
    · rw [List.dropWhile_cons_of_pos hx]
      rcases List.mem_cons.mp hm with h | h
      · subst h
        rw [hx] at hp
        simp at hp
      · exact ih h
    · rw [List.dropWhile_cons_of_neg hx]
      exact hm

theorem mem_jsTrimData_of_not_ws (l : List Char) (c : Char)
    (hm : c ∈ l) (hws : isJsWhitespace c = false) : c ∈ jsTrimData l := by
  unfold jsTrimData
  rw [List.mem_reverse]
  apply mem_dropWhile_of_not _ _ _ _ hws
  rw [List.mem_reverse]
  exact mem_dropWhile_of_not _ _ _ hm hws

/-- C8 counterexample: the raw path containing the control character U+0001
(but no null byte) is not rejected with the NullByte error — it resolves
successfully — so "control or null character" overstates the check. -/
theorem resolveRepoPath_control_char_counterexample :
    (("a\u0001b" : String).data.any (fun c => decide (c.toNat < 32)) = true)
    ∧ resolveRepoPath "/repo" (some "a\u0001b") = Except.ok "/repo/a\u0001b" :=
  ⟨rfl, rfl⟩

/-- C8 amended: a raw path containing the null character U+0000 is rejected
by `resolveRepoPath` with the NullByte error, before any filesystem access
(the function consults no filesystem at all). -/
theorem resolveRepoPath_nullByte_on_null (root raw : String)
    (hnull : nullChar ∈ raw.data) :
    resolveRepoPath root (some raw) = Except.error "Path contains null byte" := by
  have hmem : nullChar ∈ (jsTrim raw).data :=
    mem_jsTrimData_of_not_ws raw.data nullChar hnull (by decide)
  have hc : (jsTrim raw).data.contains nullChar = true := by simpa using hmem
  simp [resolveRepoPath, hc, hmem]

/-- C8 amended witness: a path with an embedded null byte. -/
theorem resolveRepoPath_nullByte_on_null_witness :
    resolveRepoPath "/repo" (some "a\u0000b") = Except.error "Path contains null byte" :=
  resolveRepoPath_nullByte_on_null "/repo" "a\u0000b" (by decide)

/-- C9: when the ignore-oracle invocation fails to produce output, the
filter returns the empty set — the batch is treated as nothing ignored —
and the access check proceeds instead of failing (fail-open). -/
theorem gitIgnored_failOpen (paths : List String) (root absPath : String)
    (allowGitIgnored : Bool) :
    getGitIgnoredPathSet (fun _ => ExecOutcome.failure none) paths = []
    ∧ (isBlockedHiddenRepoRelativePath (toRepoRelativePath root absPath) = false →
        assertPathAccessible (fun _ => ExecOutcome.failure none) root absPath false
          allowGitIgnored = Except.ok ()) := by
  have hempty : ∀ ps : List String,
      getGitIgnoredPathSet (fun _ => ExecOutcome.failure none) ps = [] := by
    intro ps
    simp only [getGitIgnoredPathSet]
    split
    · rfl
    · rfl
  refine ⟨hempty paths, ?_⟩
  intro hh
  simp only [assertPathAccessible, hh, Bool.and_false, Bool.false_eq_true, if_false]
  split
  · rw [hempty]
    simp
  · rfl

/-- C9 witness: with a failed oracle, a visible path stays accessible. -/
theorem gitIgnored_failOpen_witness :
    assertPathAccessible (fun _ => ExecOutcome.failure none) "/repo" "/repo/src" false
      false = Except.ok () :=
  (gitIgnored_failOpen [] "/repo" "/repo/src" false).2 (by decide)

/-- C5: a repo-relative path is classified hidden iff some slash-separated
segment starts with a dot; the empty (root) path is never hidden; the
hidden check blocks exactly when the call site does not pass allowHidden. -/
theorem hidden_path_classification (p root absPath : String)
    (exec : List String → ExecOutcome) (allowGitIgnored : Bool) :
    (isHiddenRepoRelativePath p = true ↔
      ∃ seg ∈ splitSlashCh p.data, ['.'] <+: seg)
    ∧ isHiddenRepoRelativePath "" = false
    ∧ (isBlockedHiddenRepoRelativePath (toRepoRelativePath root absPath) = true →
        assertPathAccessible exec root absPath false allowGitIgnored =
          Except.error "Hidden paths are not accessible")
    ∧ assertPathAccessible exec root absPath true allowGitIgnored ≠
        Except.error "Hidden paths are not accessible" := by
  refine ⟨?_, rfl, ?_, ?_⟩
  · by_cases hp : p = ""
    · subst hp
      simp [isHiddenRepoRelativePath, splitSlashCh, splitOnCharCh]
    · simp only [isHiddenRepoRelativePath, if_neg hp, List.any_eq_true]
      constructor
      · rintro ⟨seg, hm, hpre⟩
        exact ⟨seg, hm, isPrefixOf_eq_true_iff.mp hpre⟩
      · rintro ⟨seg, hm, hpre⟩
        exact ⟨seg, hm, isPrefixOf_eq_true_iff.mpr hpre⟩
  · intro hh
    simp [assertPathAccessible, hh]
  · simp only [assertPathAccessible, Bool.not_true, Bool.false_and,
      Bool.false_eq_true, if_false]
    split
    · split
      · intro hc
        simp at hc
      · intro hc
        simp at hc
    · intro hc
      simp at hc

/-- C5 witness: the dot-directory path is blocked when hidden names are not
allowed. -/
theorem hidden_path_classification_witness :
    assertPathAccessible (fun _ => ExecOutcome.failure none) "/repo" "/repo/.git"
      false false = Except.error "Hidden paths are not accessible" :=
  (hidden_path_classification ".git" "/repo" "/repo/.git"
    (fun _ => ExecOutcome.failure none) false).2.2.1 (by decide)


theorem imsPart_iff (parseDate : String → Option Int) (ims : Option String)
    (lastMs : Rat) :
    (match ims with
      | some h =>
        if h = "" then false
        else
          match parseDate h with
          | some since => decide (since ≥ Rat.floor (lastMs / 1000) * 1000)
          | none => false
      | none => false) = true ↔
      (∃ h t, ims = some h ∧ h ≠ "" ∧ parseDate h = some t ∧
        Rat.floor (lastMs / 1000) * 1000 ≤ t) := by
  cases ims with
  | none => simp
  | some h =>
    by_cases hh : h = ""
    · subst hh
      simp
    · simp only [if_neg hh]
      cases hpd : parseDate h with
      | none => simp [hh, hpd]
      | some t => simp [hh, hpd, ge_iff_le]

/-- C7: the conditional responder answers NotModified exactly when some
comma-separated If-None-Match value equals the computed weak tag or is the
star, or the If-Modified-Since header parses to a time at or after the
modification time truncated to whole seconds; the weak tag combines byte
size and floored millisecond mtime. -/
theorem notModified_iff (parseDate : String → Option Int)
    (inm ims : Option String) (st : Stats) :
    buildWeakETag st =
      "W/\"" ++ toString st.size ++ "-" ++ toString (Rat.floor st.mtimeMs) ++ "\""
    ∧ (shouldRespondNotModified parseDate inm ims (buildWeakETag st) st.mtimeMs = true ↔
      (∃ h, inm = some h ∧ h ≠ "" ∧
        ∃ v ∈ (splitOnCharCh ',' h.data).map (fun v => (jsTrim ⟨v⟩ : String)),
          v = "*" ∨ v = buildWeakETag st)
      ∨ (∃ h t, ims = some h ∧ h ≠ "" ∧ parseDate h = some t ∧
          Rat.floor (st.mtimeMs / 1000) * 1000 ≤ t)) := by
  refine ⟨rfl, ?_⟩
  have hims := imsPart_iff parseDate ims st.mtimeMs
  unfold shouldRespondNotModified
  cases inm with
  | none =>
    simp only [if_neg (Bool.false_ne_true)]
    rw [hims]
    simp
  | some h =>
    by_cases hh : h = ""
    · simp only [if_pos hh, if_neg (Bool.false_ne_true)]
      rw [hims]
      simp [hh]
    · simp only [if_neg hh]
      by_cases hhit :
          (((splitOnCharCh ',' h.data).map (fun v => (jsTrim ⟨v⟩ : String))).contains "*" ||
            ((splitOnCharCh ',' h.data).map
              (fun v => (jsTrim ⟨v⟩ : String))).contains (buildWeakETag st)) = true
      · rw [if_pos hhit]
        simp only [true_iff]
        left
        refine ⟨h, rfl, hh, ?_⟩
        simp only [Bool.or_eq_true] at hhit
        rcases hhit with hstar | hetag
        · simp at hstar
          rcases hstar with ⟨a, ha, hja⟩
          exact ⟨jsTrim ⟨a⟩, List.mem_map_of_mem _ ha, Or.inl hja⟩
        · simp at hetag
          rcases hetag with ⟨a, ha, hja⟩
          exact ⟨jsTrim ⟨a⟩, List.mem_map_of_mem _ ha, Or.inr hja⟩
      · rw [if_neg hhit]
        rw [hims]
        constructor
        · intro hr
          exact Or.inr hr
        · intro hr
          rcases hr with hl | hr2
          · exfalso
            rcases hl with ⟨h2, hh2, hne2, v, hv, hvor⟩
            rcases Option.some.injEq h h2 ▸ hh2 with h2eq
            have h2eq2 : h = h2 := by
              injection hh2.symm
            subst h2eq2
            apply hhit
            simp only [Bool.or_eq_true]
            rcases List.mem_map.mp hv with ⟨a, ha, hfa⟩
            rcases hvor with hv1 | hv2
            · left
              simp
              exact ⟨a, ha, hv1 ▸ hfa⟩
            · right
              simp
              exact ⟨a, ha, hv2 ▸ hfa⟩
          · exact hr2

theorem validateUploadFilename_eq_none (f : String)
    (h : validateUploadFilename f = none) :
    f ≠ "" ∧ f.data.any isJsWhitespace = false ∧ jsStartsWith f "." = false ∧
    f.data.all isAllowedFilenameChar = true ∧
    jsToLower (extname f) ∈ ALLOWED_IMAGE_EXTENSIONS ∧ jsToLower (extname f) ≠ "" := by
  unfold validateUploadFilename at h
  by_cases h1 : f = ""
  · rw [if_pos h1] at h
    exact absurd h (by simp)
  rw [if_neg h1] at h
  by_cases h2 : f.data.any isJsWhitespace = true
  · rw [if_pos h2] at h
    exact absurd h (by simp)
  rw [if_neg h2] at h
  by_cases h3 : f = "." ∨ f = ".." ∨ jsStartsWith f "." = true
  · rw [if_pos h3] at h
    exact absurd h (by simp)
  rw [if_neg h3] at h
  by_cases h4 : (!(decide (f.data ≠ []) && f.data.all isAllowedFilenameChar)) = true
  · rw [if_pos h4] at h
    exact absurd h (by simp)
  rw [if_neg h4] at h
  simp only [] at h
  by_cases h5 : jsToLower (extname f) = "" ∨ ¬ jsToLower (extname f) ∈ ALLOWED_IMAGE_EXTENSIONS
  · rw [if_pos h5] at h
    exact absurd h (by simp)
  push_neg at h3 h5
  have hws : f.data.any isJsWhitespace = false := by simpa using h2
  have hdot : jsStartsWith f "." = false := by simpa using h3.2.2
  have hall : f.data.all isAllowedFilenameChar = true := by
    simp at h4
    simpa [List.all_eq_true] using h4.2
  exact ⟨h1, hws, hdot, hall, h5.2, h5.1⟩

/-- C6: a candidate filename containing whitespace, or starting with a dot,
or containing a character outside the allowed class, or whose lowercased
extension is not in the image allow-list, is rejected by
`validateUploadFilename`, and the storage filename callback then errors out
instead of producing a destination name, so no file is written. -/
theorem upload_filename_validation_rejects (f : String)
    (hbad : f.data.any isJsWhitespace = true ∨ jsStartsWith f "." = true ∨
      ¬ f.data.all isAllowedFilenameChar = true ∨
      jsToLower (extname f) ∉ ALLOWED_IMAGE_EXTENSIONS) :
    validateUploadFilename f ≠ none
    ∧ ∀ (now : Int) (dir rn : String) (existsAt : String → Bool),
        sanitizeUploadFilename now rn = f →
        ∃ e, storageFilename now (some dir) (some rn) existsAt = Except.error e := by
  have hne : validateUploadFilename f ≠ none := by
    intro hn
    rcases validateUploadFilename_eq_none f hn with ⟨_, hws, hdot, hall, hmem, _⟩
    rcases hbad with hb | hb | hb | hb
    · rw [hws] at hb
      exact Bool.false_ne_true hb
    · rw [hdot] at hb
      exact Bool.false_ne_true hb
    · exact hb hall
    · exact hb hmem
  refine ⟨hne, ?_⟩
  intro now dir rn existsAt hsan
  rcases hv : validateUploadFilename f with _ | e
  · exact absurd hv hne
  · refine ⟨e, ?_⟩
    simp [storageFilename, hsan, hv]

/-- C6 witness: a name with a space is rejected. -/
theorem upload_filename_validation_rejects_witness :
    validateUploadFilename "a b.png" ≠ none :=
  (upload_filename_validation_rejects "a b.png" (Or.inl (by decide))).1

theorem splitSlash_joinSegs_append (l : List (List Char)) (t : List Char)
    (hne : l ≠ []) (hns : ∀ s ∈ l, '/' ∉ s) :
    splitSlashCh (joinSegsCh l ++ '/' :: t) = l ++ splitSlashCh t := by
  induction l with
  | nil => exact absurd rfl hne
  | cons s rest ih =>
    cases rest with
    | nil =>
      rw [show joinSegsCh [s] = s from rfl]
      unfold splitSlashCh
      rw [splitOnCharCh_append '/' s t (hns s (List.mem_cons_self s []))]
      rfl
    | cons r rs =>
      rw [show joinSegsCh (s :: r :: rs) = s ++ '/' :: joinSegsCh (r :: rs) from rfl]
      rw [show (s ++ '/' :: joinSegsCh (r :: rs)) ++ '/' :: t =
        s ++ '/' :: (joinSegsCh (r :: rs) ++ '/' :: t) by simp]
      unfold splitSlashCh
      rw [splitOnCharCh_append '/' s _ (hns s (List.mem_cons_self s (r :: rs)))]
      have := ih (by simp) (fun x hx => hns x (List.mem_cons_of_mem s hx))
      unfold splitSlashCh at this
      rw [this]
      rfl

theorem relSegsCh_self_append (ds l : List (List Char)) :
    relSegsCh ds (ds ++ l) = l := by
  rw [relSegsCh_drop_of_pre ds (ds ++ l) ⟨l, rfl⟩, List.drop_left]

/-- C10: a raw name whose sanitized form passes validation resolves, against
any base directory, to a path lexically inside that directory: the
escape branch of `resolveNamedImagePath` is unreachable for validated
names. -/
theorem validated_name_never_escapes (cwd : String) (now : Int)
    (base requestedName : String)
    (hval : validateUploadFilename (sanitizeUploadFilename now requestedName) = none) :
    resolveNamedImagePath cwd now base requestedName =
      Except.ok (pathResolve (pathResolve cwd base)
          (sanitizeUploadFilename now requestedName),
        sanitizeUploadFilename now requestedName)
    ∧ lexInside (pathResolve cwd base)
        (pathResolve (pathResolve cwd base)
          (sanitizeUploadFilename now requestedName)) := by
  set f := sanitizeUploadFilename now requestedName with hf
  rcases validateUploadFilename_eq_none f hval with ⟨hne, _hws, hdot, hall, _hmem, _hextne⟩
  have hd0 : f.data ≠ [] := by
    intro hc
    exact hne (String.ext hc)
  have hslash : '/' ∉ f.data := by
    intro hc
    have := (List.all_eq_true.mp hall) '/' hc
    simp [isAllowedFilenameChar] at this
  have habs : jsIsAbsolute f = false := by
    by_contra hc
    rw [Bool.not_eq_false] at hc
    rcases isPrefixOf_eq_true_iff.mp hc with ⟨u, hu⟩
    apply hslash
    rw [← hu]
    simp
  have hdd : jsStartsWith f ".." = false := by
    by_contra hc
    rw [Bool.not_eq_false] at hc
    have hp2 := isPrefixOf_eq_true_iff.mp hc
    have hp1 : (['.'] : List Char) <+: f.data :=
      List.IsPrefix.trans ⟨['.'], rfl⟩ hp2
    rw [show jsStartsWith f "." = List.isPrefixOf ['.'] f.data from rfl,
      isPrefixOf_eq_true_iff.mpr hp1] at hdot
    exact Bool.true_eq_false ▸ hdot
  have hfclean : cleanSeg f.data := by
    refine ⟨hd0, ?_, ?_, hslash⟩
    · intro hc
      rw [show jsStartsWith f "." = List.isPrefixOf ['.'] f.data from rfl, hc] at hdot
      simp at hdot
    · intro hc
      rw [show jsStartsWith f "." = List.isPrefixOf ['.'] f.data from rfl, hc] at hdot
      simp at hdot
  set ds := normAbsCh (splitSlashCh
    (if jsIsAbsolute base then base.data else cwd.data ++ '/' :: base.data)) with hds
  have hdsclean : ∀ s ∈ ds, cleanSeg s := by
    rw [hds]
    exact cleanSeg_of_mem_normAbs_split _
  have hDdata : (pathResolve cwd base).data = '/' :: joinSegsCh ds := rfl
  have hDsegs : pathSegsCh (pathResolve cwd base) = ds := pathSegsCh_mk_renderAbs _
  have hsegsAbs : normAbsCh (splitSlashCh ((pathResolve cwd base).data ++ '/' :: f.data)) =
      ds ++ [f.data] := by
    rw [hDdata]
    rw [show ('/' :: joinSegsCh ds) ++ '/' :: f.data =
      '/' :: (joinSegsCh ds ++ '/' :: f.data) from rfl]
    rw [show splitSlashCh ('/' :: (joinSegsCh ds ++ '/' :: f.data)) =
      [] :: splitSlashCh (joinSegsCh ds ++ '/' :: f.data) by
        simp [splitSlashCh, splitOnCharCh]]
    cases hd : ds with
    | nil =>
      rw [show joinSegsCh [] = [] from rfl]
      rw [show splitSlashCh ([] ++ '/' :: f.data) = [] :: splitSlashCh f.data by
        simp [splitSlashCh, splitOnCharCh]]
      unfold splitSlashCh
      rw [splitOnCharCh_of_not_mem '/' f.data hslash]
      show normAbsCh [[], [], f.data] = [f.data]
      unfold normAbsCh
      rw [show normAbsAux [] [[], [], f.data] = normAbsAux [] [f.data] by
        simp [normAbsAux]]
      rw [normAbsAux_of_clean [f.data] []
        (by
          intro x hx
          simp at hx
          subst hx
          exact ⟨hfclean.1, hfclean.2.1, hfclean.2.2.1⟩)]
      rfl
    | cons d0 drest =>
      rw [splitSlash_joinSegs_append (d0 :: drest) f.data (by simp)
        (by
          intro x hx
          exact (hdsclean x (hd ▸ hx)).2.2.2)]
      unfold splitSlashCh
      rw [splitOnCharCh_of_not_mem '/' f.data hslash]
      unfold normAbsCh
      rw [show normAbsAux [] ([] :: (d0 :: drest ++ [f.data])) =
        normAbsAux [] (d0 :: drest ++ [f.data]) by simp [normAbsAux]]
      rw [normAbsAux_of_clean (d0 :: drest ++ [f.data]) []
        (by
          intro x hx
          rcases List.mem_cons.mp hx with hx | hx
          · subst hx
            have := hdsclean x (hd ▸ List.mem_cons_self x drest)
            exact ⟨this.1, this.2.1, this.2.2.1⟩
          · rcases List.mem_append.mp hx with hx | hx
            · have := hdsclean x (hd ▸ List.mem_cons_of_mem d0 hx)
              exact ⟨this.1, this.2.1, this.2.2.1⟩
            · simp at hx
              subst hx
              exact ⟨hfclean.1, hfclean.2.1, hfclean.2.2.1⟩)]
      rfl
  have hPabs : pathResolve (pathResolve cwd base) f =
      ⟨renderAbsCh (ds ++ [f.data])⟩ := by
    show (⟨renderAbsCh (normAbsCh (splitSlashCh
      (if jsIsAbsolute f then f.data
       else (pathResolve cwd base).data ++ '/' :: f.data)))⟩ : String) =
      ⟨renderAbsCh (ds ++ [f.data])⟩
    rw [habs]
    simp only [Bool.false_eq_true, if_false]
    rw [hsegsAbs]
  have hPsegs : pathSegsCh (pathResolve (pathResolve cwd base) f) = ds ++ [f.data] := by
    rw [hPabs]
    refine pathSegsCh_render _ ?_
    intro x hx
    rcases List.mem_append.mp hx with hx | hx
    · exact hdsclean x hx
    · simp at hx
      subst hx
      exact hfclean
  have hrel : pathRelative (pathResolve cwd base) (pathResolve (pathResolve cwd base) f)
      = f := by
    unfold pathRelative
    rw [hDsegs, hPsegs, relSegsCh_self_append]
    exact String.ext rfl
  constructor
  · have hstep : resolveNamedImagePath cwd now base requestedName =
        (if jsStartsWith (pathRelative (pathResolve cwd base)
            (pathResolve (pathResolve cwd base) f)) ".." ||
          jsIsAbsolute (pathRelative (pathResolve cwd base)
            (pathResolve (pathResolve cwd base) f)) then
          Except.error "Path escapes target directory"
        else Except.ok (pathResolve (pathResolve cwd base) f, f)) := by
      simp only [resolveNamedImagePath]
      rw [← hf, hval]
    rw [hstep, hrel, hdd, show jsIsAbsolute f = false from habs]
    simp
  · show pathSegsCh (pathResolve cwd base) <+:
      pathSegsCh (pathResolve (pathResolve cwd base) f)
    rw [hDsegs, hPsegs]
    exact ⟨[f.data], rfl⟩

/-- C10 witness: a validated name resolves inside the clipboard directory. -/
theorem validated_name_never_escapes_witness :
    resolveNamedImagePath "/repo" 0 "/repo/.clipboard" "shot.png" =
      Except.ok ("/repo/.clipboard/shot.png", "shot.png") := by
  have h := (validated_name_never_escapes "/repo" 0 "/repo/.clipboard" "shot.png"
    (by decide)).1
  rw [h]
  rfl

/-- A request whose credential check fails: no parseable password, or a
supplied password that does not match the configured secret. -/
def credentialCheckFails (base64 : String → Option String) (expected : String)
    (req : Request) : Prop :=
  parseBasicAuthPassword base64 req = none ∨
  ∃ pw, parseBasicAuthPassword base64 req = some pw ∧
    constantTimePasswordMatch pw expected = false

theorem mapSet_same (m : AuthMap) (k : String) (v : AuthRecord) :
    mapSet m k v k = some v := by
  simp [mapSet]

theorem authMiddleware_blocked (base64 : String → Option String)
    (parseURL : String → Option JsURL) (expected : String) (now : Int)
    (req : Request) (m : AuthMap) (e : AuthRecord)
    (hm : m (clientIPAddress req) = some e)
    (hb0 : e.blockedUntil ≠ 0) (hbt : now < e.blockedUntil) :
    authMiddleware base64 parseURL expected now req m =
      (AuthOutcome.rateLimited (jsCeilDiv1000 (e.blockedUntil - now)), m)
    ∧ 0 < jsCeilDiv1000 (e.blockedUntil - now) := by
  constructor
  · simp only [authMiddleware]
    rw [hm]
    simp [hb0, hbt]
  · unfold jsCeilDiv1000
    omega

theorem authMiddleware_wrong_fresh (base64 : String → Option String)
    (parseURL : String → Option JsURL) (expected : String) (t : Int)
    (req : Request) (m : AuthMap)
    (hm : m (clientIPAddress req) = none)
    (hfail : credentialCheckFails base64 expected req) :
    authMiddleware base64 parseURL expected t req m =
      (AuthOutcome.unauthorized, mapSet m (clientIPAddress req) ⟨t, 1, 0⟩) := by
  simp only [authMiddleware]
  rw [hm]
  rcases hfail with hpw | ⟨pw, hpw, hmatch⟩
  · simp [hpw, recordAuthFailure, hm]
  · simp [hpw, hmatch, recordAuthFailure, hm]

theorem authMiddleware_wrong_step (base64 : String → Option String)
    (parseURL : String → Option JsURL) (expected : String) (t : Int)
    (req : Request) (m : AuthMap) (w : Int) (fcount : Nat)
    (hm : m (clientIPAddress req) = some ⟨w, fcount, 0⟩)
    (hfail : credentialCheckFails base64 expected req)
    (hwin : t - w < AUTH_WINDOW_MS)
    (hlt : fcount + 1 < AUTH_MAX_ATTEMPTS) :
    authMiddleware base64 parseURL expected t req m =
      (AuthOutcome.unauthorized, mapSet m (clientIPAddress req) ⟨w, fcount + 1, 0⟩) := by
  simp only [authMiddleware]
  rw [hm]
  have hnw : ¬ (t - w ≥ AUTH_WINDOW_MS) := not_le.mpr hwin
  have hnt : ¬ (fcount + 1 ≥ AUTH_MAX_ATTEMPTS) := not_le.mpr hlt
  rcases hfail with hpw | ⟨pw, hpw, hmatch⟩
  · simp [hpw, recordAuthFailure, hm, hnw, hnt]
  · simp [hpw, hmatch, recordAuthFailure, hm, hnw, hnt]

theorem authMiddleware_block_step (base64 : String → Option String)
    (parseURL : String → Option JsURL) (expected : String) (t : Int)
    (req : Request) (m : AuthMap) (w : Int) (fcount : Nat)
    (hm : m (clientIPAddress req) = some ⟨w, fcount, 0⟩)
    (hfail : credentialCheckFails base64 expected req)
    (hwin : t - w < AUTH_WINDOW_MS)
    (hge : fcount + 1 ≥ AUTH_MAX_ATTEMPTS) :
    authMiddleware base64 parseURL expected t req m =
      (AuthOutcome.rateLimited 900,
        mapSet m (clientIPAddress req) ⟨t, 0, t + AUTH_BLOCK_MS⟩) := by
  simp only [authMiddleware]
  rw [hm]
  have hnw : ¬ (t - w ≥ AUTH_WINDOW_MS) := not_le.mpr hwin
  have hretry : jsCeilDiv1000 (t + AUTH_BLOCK_MS - t) = 900 := by
    have : t + AUTH_BLOCK_MS - t = 900000 := by
      unfold AUTH_BLOCK_MS
      ring
    rw [this]
    decide
  rcases hfail with hpw | ⟨pw, hpw, hmatch⟩
  · simp [hpw, recordAuthFailure, hm, hnw, hge, hretry]
    decide
  · simp [hpw, hmatch, recordAuthFailure, hm, hnw, hge, hretry]
    decide

/-- Folding a sequence of requests through the middleware, keeping the map. -/
def runWrongAttempts (base64 : String → Option String)
    (parseURL : String → Option JsURL) (expected : String) (req : Request)
    (ts : List Int) (m : AuthMap) : AuthMap :=
  ts.foldl (fun acc t => (authMiddleware base64 parseURL expected t req acc).2) m

theorem runWrongAttempts_window (base64 : String → Option String)
    (parseURL : String → Option JsURL) (expected : String) (req : Request)
    (hfail : credentialCheckFails base64 expected req) :
    ∀ (ts : List Int) (m : AuthMap) (w : Int) (fcount : Nat),
      m (clientIPAddress req) = some ⟨w, fcount, 0⟩ →
      (∀ t ∈ ts, t - w < AUTH_WINDOW_MS) →
      fcount + ts.length < AUTH_MAX_ATTEMPTS →
      runWrongAttempts base64 parseURL expected req ts m (clientIPAddress req) =
        some ⟨w, fcount + ts.length, 0⟩ := by
  intro ts
  induction ts with
  | nil =>
    intro m w fcount hm _ _
    simpa [runWrongAttempts] using hm
  | cons t ts ih =>
    intro m w fcount hm hwin hcnt
    have hstep := authMiddleware_wrong_step base64 parseURL expected t req m w fcount
      hm hfail (hwin t (List.mem_cons_self t ts)) (by simp at hcnt; omega)
    have hfold : runWrongAttempts base64 parseURL expected req (t :: ts) m =
        runWrongAttempts base64 parseURL expected req ts
          ((authMiddleware base64 parseURL expected t req m).2) := rfl
    rw [hfold, hstep]
    have := ih (mapSet m (clientIPAddress req) ⟨w, fcount + 1, 0⟩) w (fcount + 1)
      (mapSet_same _ _ _)
      (fun x hx => hwin x (List.mem_cons_of_mem t hx))
      (by simp at hcnt; omega)
    rw [this]
    congr 1
    simp
    omega

/-- C3: after exactly the threshold (20) of failing attempts from one IP
within one window, the gateway blocks the IP until now plus the block
duration, the 20th attempt itself is answered 429 with Retry-After 900, and
every subsequent request from that IP — whatever credentials it carries —
is answered 429 with a positive Retry-After and never reaches a handler
until the block elapses. -/
theorem auth_lockout_after_threshold (base64 : String → Option String)
    (parseURL : String → Option JsURL) (expected : String) (req : Request)
    (t1 t20 : Int) (ts : List Int) (m0 : AuthMap)
    (hexpne : expected ≠ "")
    (hfail : credentialCheckFails base64 expected req)
    (hm0 : m0 (clientIPAddress req) = none)
    (hlen : ts.length = AUTH_MAX_ATTEMPTS - 2)
    (ht1 : 0 ≤ t1)
    (hts : ∀ t ∈ ts, t1 ≤ t ∧ t - t1 < AUTH_WINDOW_MS)
    (ht20a : t1 ≤ t20) (ht20b : t20 - t1 < AUTH_WINDOW_MS) :
    let m1 := (authMiddleware base64 parseURL expected t1 req m0).2
    let m19 := runWrongAttempts base64 parseURL expected req ts m1
    let final := authMiddleware base64 parseURL expected t20 req m19
    m19 (clientIPAddress req) = some ⟨t1, AUTH_MAX_ATTEMPTS - 1, 0⟩
    ∧ final.1 = AuthOutcome.rateLimited 900
    ∧ final.2 (clientIPAddress req) = some ⟨t20, 0, t20 + AUTH_BLOCK_MS⟩
    ∧ ∀ (t : Int) (req2 : Request) (base64a : String → Option String)
        (parseURLa : String → Option JsURL),
        clientIPAddress req2 = clientIPAddress req → t1 ≤ t → t < t20 + AUTH_BLOCK_MS →
        (authMiddleware base64a parseURLa expected t req2 final.2).1 =
          AuthOutcome.rateLimited (jsCeilDiv1000 (t20 + AUTH_BLOCK_MS - t))
        ∧ 0 < jsCeilDiv1000 (t20 + AUTH_BLOCK_MS - t)
        ∧ (authMiddleware base64a parseURLa expected t req2 final.2).2 = final.2 := by
  intro m1 m19 final
  have hstep1 := authMiddleware_wrong_fresh base64 parseURL expected t1 req m0 hm0 hfail
  have hm1 : m1 (clientIPAddress req) = some ⟨t1, 1, 0⟩ := by
    show (authMiddleware base64 parseURL expected t1 req m0).2 (clientIPAddress req) =
      some ⟨t1, 1, 0⟩
    rw [hstep1]
    exact mapSet_same _ _ _
  have hm19 : m19 (clientIPAddress req) = some ⟨t1, AUTH_MAX_ATTEMPTS - 1, 0⟩ := by
    show runWrongAttempts base64 parseURL expected req ts m1 (clientIPAddress req) =
      some ⟨t1, AUTH_MAX_ATTEMPTS - 1, 0⟩
    have hrun := runWrongAttempts_window base64 parseURL expected req hfail ts m1 t1 1
      hm1 (fun t ht => (hts t ht).2) (by rw [hlen]; decide)
    rw [hrun, hlen]
    rfl
  have hblockstep := authMiddleware_block_step base64 parseURL expected t20 req m19
    t1 (AUTH_MAX_ATTEMPTS - 1) hm19 hfail ht20b (by decide)
  have hfinal2 : final.2 (clientIPAddress req) =
      some ⟨t20, 0, t20 + AUTH_BLOCK_MS⟩ := by
    show (authMiddleware base64 parseURL expected t20 req m19).2 (clientIPAddress req) =
      some ⟨t20, 0, t20 + AUTH_BLOCK_MS⟩
    rw [hblockstep]
    exact mapSet_same _ _ _
  refine ⟨hm19, ?_, hfinal2, ?_⟩
  · show (authMiddleware base64 parseURL expected t20 req m19).1 =
      AuthOutcome.rateLimited 900
    rw [hblockstep]
  · intro t req2 base64a parseURLa hip2 hta htb
    have hbu : (⟨t20, 0, t20 + AUTH_BLOCK_MS⟩ : AuthRecord).blockedUntil ≠ 0 := by
      show t20 + AUTH_BLOCK_MS ≠ 0
      unfold AUTH_BLOCK_MS
      omega
    have hblocked := authMiddleware_blocked base64a parseURLa expected t req2 final.2
      ⟨t20, 0, t20 + AUTH_BLOCK_MS⟩ (by rw [hip2]; exact hfinal2) hbu htb
    refine ⟨?_, hblocked.2, ?_⟩
    · rw [hblocked.1]
    · rw [hblocked.1]

/-- A request carrying no usable credentials, from a fixed client address. -/
def wrongReqW : Request :=
  { method := "GET", authorization := none, origin := none, referer := none,
    host := some "example.test", xForwardedHost := none, xForwardedProto := none,
    protocol := some "http", xForwardedFor := none, ip := some "1.2.3.4",
    remoteAddress := none, ifNoneMatch := none, ifModifiedSince := none }

/-- C3 witness: twenty failing attempts at time zero from one IP leave the
twentieth answered 429 with Retry-After 900. -/
theorem auth_lockout_after_threshold_witness :
    (authMiddleware (fun _ => none) (fun _ => none) "pw" 0 wrongReqW
      (runWrongAttempts (fun _ => none) (fun _ => none) "pw" wrongReqW
        (List.replicate 18 0)
        ((authMiddleware (fun _ => none) (fun _ => none) "pw" 0 wrongReqW
          (fun _ => none)).2))).1 = AuthOutcome.rateLimited 900 :=
  (auth_lockout_after_threshold (fun _ => none) (fun _ => none) "pw" wrongReqW 0 0
    (List.replicate 18 0) (fun _ => none) (by decide) (Or.inl rfl) rfl (by decide)
    le_rfl (by decide) le_rfl (by decide)).2.1

/-- The effective origin authority of a request: derived from the Origin
header or, absent that, the Referer header, exactly as the gateway
normalizes it. -/
def effectiveOriginAuthority (parseURL : String → Option JsURL) (req : Request) :
    Option String :=
  match req.origin with
  | some originHeader =>
    if originHeader = "" then
      match req.referer with
      | some refererHeader =>
        if refererHeader = "" then none
        else (parseURL refererHeader).map normalizeAuthority
      | none => none
    else (parseURL originHeader).map normalizeAuthority
  | none =>
    match req.referer with
    | some refererHeader =>
      if refererHeader = "" then none
      else (parseURL refererHeader).map normalizeAuthority
    | none => none

theorem isSameOriginMutation_eq_true_iff (parseURL : String → Option JsURL)
    (req : Request) :
    isSameOriginMutation parseURL req = true ↔
      ∃ a, normalizeRequestAuthority parseURL req = some a ∧
        effectiveOriginAuthority parseURL req = some a := by
  unfold isSameOriginMutation effectiveOriginAuthority
  cases hra : normalizeRequestAuthority parseURL req with
  | none => simp
  | some a =>
    cases ho : req.origin with
    | none =>
      cases hr : req.referer with
      | none => simp
      | some rh =>
        by_cases hre : rh = ""
        · simp [hre]
        · simp only [if_neg hre]
          cases hpu : parseURL rh with
          | none => simp
          | some u => simp [eq_comm]
    | some oh =>
      by_cases hoe : oh = ""
      · simp only [if_pos hoe]
        cases hr : req.referer with
        | none => simp
        | some rh =>
          by_cases hre : rh = ""
          · simp [hre]
          · simp only [if_neg hre]
            cases hpu : parseURL rh with
            | none => simp
            | some u => simp [eq_comm]
      · simp only [if_neg hoe]
        cases hpu : parseURL oh with
        | none => simp
        | some u => simp [eq_comm]

/-- C4: a mutating request that passes the credential check but whose
effective origin is missing or differs from the request's own authority is
answered 403 and never proceeds to a handler. -/
theorem mutating_request_origin_mismatch_403 (base64 : String → Option String)
    (parseURL : String → Option JsURL) (expected : String) (now : Int)
    (req : Request) (m : AuthMap) (pw : String)
    (hexpne : expected ≠ "")
    (hnotblocked : ∀ e, m (clientIPAddress req) = some e →
      e.blockedUntil = 0 ∨ e.blockedUntil ≤ now)
    (hpw : parseBasicAuthPassword base64 req = some pw)
    (hmatch : constantTimePasswordMatch pw expected = true)
    (hmut : req.method = "POST" ∨ req.method = "PUT" ∨ req.method = "PATCH" ∨
      req.method = "DELETE")
    (horigin : effectiveOriginAuthority parseURL req = none ∨
      normalizeRequestAuthority parseURL req = none ∨
      effectiveOriginAuthority parseURL req ≠ normalizeRequestAuthority parseURL req) :
    (authMiddleware base64 parseURL expected now req m).1 = AuthOutcome.forbidden
    ∧ (authMiddleware base64 parseURL expected now req m).1 ≠ AuthOutcome.proceed := by
  have hso : isSameOriginMutation parseURL req = false := by
    rw [← Bool.not_eq_true, isSameOriginMutation_eq_true_iff]
    rintro ⟨a, hra, heo⟩
    rcases horigin with h | h | h
    · rw [heo] at h
      simp at h
    · rw [hra] at h
      simp at h
    · rw [heo, hra] at h
      exact h rfl
  have hmain : (authMiddleware base64 parseURL expected now req m).1 =
      AuthOutcome.forbidden := by
    cases hme : m (clientIPAddress req) with
    | none =>
      simp only [authMiddleware]
      rw [hme]
      simp [hpw, hmatch, hmut, hso]
    | some e =>
      rcases hnotblocked e hme with h0 | hle
      · simp only [authMiddleware]
        rw [hme]
        simp [h0, hpw, hmatch, hmut, hso]
      · have hnt : ¬ (e.blockedUntil > now) := not_lt.mpr hle
        simp only [authMiddleware]
        rw [hme]
        simp [hnt, hpw, hmatch, hmut, hso]
  refine ⟨hmain, ?_⟩
  rw [hmain]
  simp

/-- A mutating request with valid credentials but no Origin or Referer. -/
def noOriginReqW : Request :=
  { method := "DELETE", authorization := some "Basic QQ==", origin := none,
    referer := none, host := some "example.test", xForwardedHost := none,
    xForwardedProto := none, protocol := some "http", xForwardedFor := none,
    ip := some "1.2.3.4", remoteAddress := none, ifNoneMatch := none,
    ifModifiedSince := none }

/-- C4 witness: a credentialed DELETE without Origin or Referer is 403. -/
theorem mutating_request_origin_mismatch_403_witness :
    (authMiddleware (fun s => if s = "QQ==" then some ":pw" else none)
      (fun _ => some ⟨"http:", "example.test", ""⟩) "pw" 0 noOriginReqW
      (fun _ => none)).1 = AuthOutcome.forbidden :=
  (mutating_request_origin_mismatch_403
    (fun s => if s = "QQ==" then some ":pw" else none)
    (fun _ => some ⟨"http:", "example.test", ""⟩) "pw" 0 noOriginReqW
    (fun _ => none) "pw" (by decide) (fun e he => by cases he) rfl rfl
    (Or.inr (Or.inr (Or.inr rfl))) (Or.inl rfl)).1
